import Mathlib

/-!
Verification of `kfs/generators.py` (repository melton1968/kfs).

The module builds batched, time-delayed samples for sequence regression.
We embed its arithmetic core in Lean: the overlap batch partitioner
`_make_batches_overlap`, the delay-index clamping used by
`time_delay_generator` and `time_delay_generator_AE`, the gather/transpose
sample assembler, the sample-weight masking, and the stream semantics of
`time_delay_generator_conv`.  Arrays along the leading "time" axis are
modelled as functions `ℕ → α` (with an explicit length `N`); index arrays
are `List ℕ`; numpy integer arithmetic is exact `ℤ` arithmetic.
-/

namespace KFS

/-- `int(np.ceil(a / float(b)))` for integral `a`, `b` with `b > 0`:
ceiling division, written via Euclidean division (for `b > 0` the
Lean `/` on `ℤ` is floor division, so `-((-a) / b)` is the ceiling). -/
def iceilDiv (a b : ℤ) : ℤ := -(-a / b)

/-- Element-wise clamp of a requested index into `[lo, hi]`. -/
def clamp (v lo hi : ℤ) : ℤ := min (max lo v) hi

/-- `_make_batches_overlap(size, batch_size, overlap, filt_length)`
(generators.py lines 30-35):

    nb_batch = int(np.ceil((size - batch_size) / float(batch_size - overlap))) + 1
    return [(i * (batch_size - overlap), min(size, (i + 1) * batch_size - i * overlap))
            for i in range(0, nb_batch)]

`filt_length` is accepted but unused.  A negative `nb_batch` makes
`range(0, nb_batch)` empty, hence the `Int.toNat`. -/
def _make_batches_overlap (size batch_size overlap filt_length : ℤ) : List (ℤ × ℤ) :=
  (List.range (iceilDiv (size - batch_size) (batch_size - overlap) + 1).toNat).map
    (fun (i : ℕ) => ((i : ℤ) * (batch_size - overlap),
               min size (((i : ℤ) + 1) * batch_size - (i : ℤ) * overlap)))

/-- Delay-index builder of `time_delay_generator` (line 76):
`np.minimum(np.maximum(0, batch_ids - d), x[0].shape[0] - 1)`,
at one entry `i` of `batch_ids`, for one delay `d`. -/
def tdgDelayIndex (N : ℕ) (i : ℕ) (d : ℤ) : ℤ :=
  min (max 0 ((i : ℤ) - d)) ((N : ℤ) - 1)

/-- Delay-index builder of `time_delay_generator_AE` (line 124):
`np.maximum(0, batch_ids - d)` for `d in range(delays)` (no upper clamp),
at one entry `i` of `batch_ids`. -/
def aeDelayIndex (i : ℕ) (d : ℕ) : ℤ :=
  max 0 ((i : ℤ) - (d : ℤ))

/-- Raw per-batch sample weights before masking (lines 83-86):
`weights[batch_ids, :][:, 0]` when a weight array is supplied (numpy
fancy indexing: row `batch_ids[i]`, column 0 — the array must be 2-D),
else `np.ones(x_batch[0].shape[0])`. -/
def wBatchRaw (weights : Option (ℕ → ℕ → ℚ)) (batch_ids : List ℕ) : List ℚ :=
  match weights with
  | some W => batch_ids.map (fun id => W id 0)
  | none => batch_ids.map (fun _ => (1 : ℚ))

/-- Masked per-batch sample weights (line 87):
`w_batch[batch_ids < delays[-1]] = 0.` — entries whose batch id is
strictly below the *last* delay are zeroed.  `delays[-1]` on an empty
delay list raises in Python; we use `getLastD _ 0` and restrict theorems
to nonempty delay lists. -/
def wBatch (weights : Option (ℕ → ℕ → ℚ)) (batch_ids : List ℕ) (delays : List ℤ) : List ℚ :=
  List.zipWith (fun (id : ℕ) (w : ℚ) => if (id : ℤ) < delays.getLastD 0 then 0 else w)
    batch_ids (wBatchRaw weights batch_ids)

/-- A (possibly multi-axis) tensor restricted to its first two axes: the
trailing axes of a numpy array are folded into the entry type `α`, so
`ent i j : α` is the trailing slice at position `(i, j)`. -/
structure Tensor (α : Type*) where
  rows : ℕ
  cols : ℕ
  ent : ℕ → ℕ → α

instance {α : Type*} [Inhabited α] : Inhabited (Tensor α) :=
  ⟨⟨0, 0, fun _ _ => default⟩⟩

/-- `xx[batch_ids_delay, :]` (line 77): numpy fancy indexing of the
source array `x` (leading length `N`) by the list of per-delay clamped
index arrays; axis 0 runs over delays, axis 1 over the batch, entries are
`x` at `clamp(batch_ids[i] - d, 0, N-1)` (line 76).  Out-of-shape
positions read list defaults and are irrelevant to the shape fields. -/
def gatherDelays {α : Type*} (x : ℕ → α) (N : ℕ) (batch_ids : List ℕ) (delays : List ℤ) :
    Tensor α :=
  ⟨delays.length, batch_ids.length,
   fun j i => x ((tdgDelayIndex N (batch_ids.getD i 0) (delays.getD j 0)).toNat)⟩

/-- `.transpose(tt)` with `tt = [1, 0] + list(range(2, ndim + 1))`
(lines 70 and 77): swap the first two axes, keep trailing axes. -/
def transpose10 {α : Type*} (t : Tensor α) : Tensor α :=
  ⟨t.cols, t.rows, fun i j => t.ent j i⟩

/-- One assembled source tensor of `time_delay_generator` (line 77):
gather along the leading axis by the clamped per-delay indices, then
swap batch and delay axes. -/
def xBatchOf {α : Type*} (x : ℕ → α) (N : ℕ) (batch_ids : List ℕ) (delays : List ℤ) :
    Tensor α :=
  transpose10 (gatherDelays x N batch_ids delays)

/-- Modelled from the spec: `_standardize_input_data` is an external
keras collaborator not under `src/`; per the spec it reshapes a given
array list into the framework's expected named container format, so we
model it as pairing the supplied names with the supplied tensors. -/
def _standardize_input_data {γ : Type*} (data : List γ) (names : List String) :
    List (String × γ) :=
  names.zip data

/-- The `x_batch` of one yielded batch (line 77): one gathered/transposed
tensor per source array, named `x_batch1`, `x_batch2`, .... -/
def tdgXBatch {α : Type*} (xs : List (ℕ → α)) (N : ℕ) (batch_ids : List ℕ)
    (delays : List ℤ) : List (String × Tensor α) :=
  _standardize_input_data (xs.map (fun x => xBatchOf x N batch_ids delays))
    ((List.range xs.length).map (fun (i : ℕ) => "x_batch" ++ toString (i + 1)))

/-- Modelled from the spec: keras's `_make_batches(size, batch_size)` is
not under `src/`; per spec §4.1 it returns the ordered list of `(start,
end)` pairs covering `[0, size)` with `end - start = batch_size` for all
but possibly the last chunk, clipped to `size`; the number of chunks is
`ceil(size / batch_size)`. -/
def _make_batches (size batch_size : ℕ) : List (ℕ × ℕ) :=
  (List.range ((size + batch_size - 1) / batch_size)).map
    (fun (i : ℕ) => (i * batch_size, min size ((i + 1) * batch_size)))

/-- Python slicing `l[s:e]` of a 1-D array (used at line 75 to cut
`batch_ids` out of `index_array`). -/
def pySlice {α : Type*} (l : List α) (s e : ℕ) : List α :=
  (l.drop s).take (e - s)

/-- The mutable environment of one `time_delay_generator` instance:
the caller-supplied arrays plus the generator's own `index_array`
(line 67).  Source arrays keep only their leading axis explicit. -/
structure TDGState (α β : Type*) where
  x : List (ℕ → α)
  y : ℕ → β
  weights : Option (ℕ → ℕ → ℚ)
  index_array : List ℕ

/-- One inner-loop iteration of `time_delay_generator` (lines 74-88) for
the batch range `r`: slice `index_array`, assemble `x_batch`, gather
`y_batch = y[batch_ids, :]`, and build the masked weights.  The weight
masking writes into the freshly gathered copy (`weights[batch_ids, :]`
is numpy fancy indexing, which copies), so the state is returned with no
field changed: nothing in the loop body writes to `x`, `y`, `weights` or
`index_array`. -/
def tdgEmit {α β : Type*} (N : ℕ) (delays : List ℤ) (s : TDGState α β) (r : ℕ × ℕ) :
    (List (String × Tensor α) × List β × List ℚ) × TDGState α β :=
  let batch_ids := pySlice s.index_array r.1 r.2
  ((tdgXBatch s.x N batch_ids delays, batch_ids.map s.y, wBatch s.weights batch_ids delays),
   s)

/-- One outer pass of `time_delay_generator` (lines 71-88):
`np.random.shuffle(index_array)` permutes `index_array` in place (the
permutation actually drawn is the parameter `perm`), then each batch
range of `_make_batches` is emitted in order. -/
def tdgPass {α β : Type*} (N batch_size : ℕ) (delays : List ℤ)
    (perm : List ℕ → List ℕ) (s : TDGState α β) :
    List (List (String × Tensor α) × List β × List ℚ) × TDGState α β :=
  let s1 : TDGState α β := { s with index_array := perm s.index_array }
  ((_make_batches N batch_size).map (fun r => (tdgEmit N delays s1 r).1), s1)

/-- The state of `time_delay_generator` after `n` full outer passes of
its `while 1` loop; `perms k` is the permutation drawn by the shuffle of
pass `k`. -/
def tdgRunState {α β : Type*} (N batch_size : ℕ) (delays : List ℤ)
    (perms : ℕ → List ℕ → List ℕ) : ℕ → TDGState α β → TDGState α β
  | 0, s => s
  | n + 1, s => tdgRunState N batch_size delays perms n
      (tdgPass N batch_size delays (perms n) s).2

/-- `batch_size = frames_per_TR * TRs_in_model + filt_length - 1`
(line 157 of `time_delay_generator_conv`). -/
def convBatchSize (filt_length frames_per_TR TRs_in_model : ℤ) : ℤ :=
  frames_per_TR * TRs_in_model + filt_length - 1

/-- `x_size_expand = int(np.ceil((x.shape[0] - batch_size) / float(frames_per_TR))
* frames_per_TR + batch_size)` (line 158), with `L` the leading length of `x`. -/
def convXSizeExpand (L : ℕ) (filt_length frames_per_TR TRs_in_model : ℤ) : ℤ :=
  iceilDiv ((L : ℤ) - convBatchSize filt_length frames_per_TR TRs_in_model) frames_per_TR
      * frames_per_TR
    + convBatchSize filt_length frames_per_TR TRs_in_model

/-- The fixed window list of `time_delay_generator_conv` (line 159):
`_make_batches_overlap(x_size_expand, batch_size,
frames_per_TR*(TRs_in_model-1)+filt_length-1, filt_length)`. -/
def convBatches (L : ℕ) (filt_length frames_per_TR TRs_in_model : ℤ) : List (ℤ × ℤ) :=
  _make_batches_overlap (convXSizeExpand L filt_length frames_per_TR TRs_in_model)
    (convBatchSize filt_length frames_per_TR TRs_in_model)
    (frames_per_TR * (TRs_in_model - 1) + filt_length - 1)
    filt_length

/-- `index_array = np.minimum(x.shape[0]-1, np.arange(0, x_size_expand))`
(line 161), read at position `i`. -/
def convIndex (L : ℕ) (i : ℤ) : ℤ := min ((L : ℤ) - 1) i

/-- The batch emitted by `time_delay_generator_conv` for window `r`
(lines 163-165): `x[index_array[batch_start:batch_end], :][None, :]`,
wrapped by `_standardize_input_data` under the name `x_batch` (the
`[None, :]` leading unit axis is shape bookkeeping for the framework). -/
def convEmit {α : Type*} (x : ℕ → α) (L : ℕ) (r : ℤ × ℤ) : List (String × List α) :=
  _standardize_input_data
    [(List.range (r.2 - r.1).toNat).map (fun (t : ℕ) => x (convIndex L (r.1 + t)).toNat)]
    ["x_batch"]

/-- Stream semantics of the conv generator's `while 1: for ... yield`
loop (lines 162-165): if the window list is empty the loop spins without
ever yielding (`none`); otherwise the `n`-th yielded value is the batch
of window `n mod W`. -/
def convNth {α : Type*} (x : ℕ → α) (L : ℕ) (filt_length frames_per_TR TRs_in_model : ℤ)
    (n : ℕ) : Option (List (String × List α)) :=
  if (convBatches L filt_length frames_per_TR TRs_in_model).length = 0 then none
  else some (convEmit x L
    ((convBatches L filt_length frames_per_TR TRs_in_model).getD
      (n % (convBatches L filt_length frames_per_TR TRs_in_model).length) (0, 0)))

/-! ### Basic facts about `iceilDiv` (divisor positive) -/

theorem iceilDiv_le_iff {a b c : ℤ} (hb : 0 < b) : iceilDiv a b ≤ c ↔ a ≤ c * b := by
  unfold iceilDiv
  rw [neg_le, Int.le_ediv_iff_mul_le hb]
  constructor <;> intro h <;> nlinarith

theorem le_mul_iceilDiv {a b : ℤ} (hb : 0 < b) : a ≤ iceilDiv a b * b := by
  have h := Int.ediv_mul_le (-a) (Int.ne_of_gt hb)
  unfold iceilDiv
  rw [neg_mul]
  linarith

theorem mul_iceilDiv_sub_one_lt {a b : ℤ} (hb : 0 < b) : (iceilDiv a b - 1) * b < a := by
  have h := Int.lt_ediv_add_one_mul_self (-a) hb
  unfold iceilDiv
  have : (-(-a / b) - 1) * b = -((-a / b + 1) * b) := by ring
  rw [this]
  linarith

/-! ### Window formula of `_make_batches_overlap` -/

theorem length_make_batches_overlap (size bs ov fl : ℤ) :
    (_make_batches_overlap size bs ov fl).length =
      (iceilDiv (size - bs) (bs - ov) + 1).toNat := by
  simp only [_make_batches_overlap, List.length_map, List.length_range]

theorem get_make_batches_overlap (size bs ov fl : ℤ) (i : ℕ)
    (h : i < (_make_batches_overlap size bs ov fl).length) :
    (_make_batches_overlap size bs ov fl).get ⟨i, h⟩ =
      ((i : ℤ) * (bs - ov), min size (((i : ℤ) + 1) * bs - (i : ℤ) * ov)) := by
  have h' : i < (iceilDiv (size - bs) (bs - ov) + 1).toNat := by
    rwa [length_make_batches_overlap] at h
  simp only [_make_batches_overlap, List.get_eq_getElem, List.getElem_map,
    List.getElem_range]

theorem getD_make_batches_overlap (size bs ov fl : ℤ) (i : ℕ)
    (h : i < (_make_batches_overlap size bs ov fl).length) :
    (_make_batches_overlap size bs ov fl).getD i (0, 0) =
      ((i : ℤ) * (bs - ov), min size (((i : ℤ) + 1) * bs - (i : ℤ) * ov)) := by
  rw [List.getD_eq_getElem?_getD, List.getElem?_eq_getElem h, Option.getD_some]
  exact get_make_batches_overlap size bs ov fl i h

/-! ### Claim C1: the overlap partitioner's window count and window formula -/

/-- C1 fails as stated: for `size=1, batch_size=4, overlap=3` (all
positive, `0 ≤ overlap < batch_size`) the claimed window count
`ceil((size-batch_size)/(batch_size-overlap)) + 1` is `-2`, but
`_make_batches_overlap` returns the empty list (0 windows). -/
theorem C1_window_list_counterexample :
    (1 : ℤ) ≤ 1 ∧ (1 : ℤ) ≤ 4 ∧ (0 : ℤ) ≤ 3 ∧ (3 : ℤ) < 4 ∧
    ((_make_batches_overlap 1 4 3 0).length : ℤ) ≠ iceilDiv (1 - 4) (4 - 3) + 1 := by
  decide

/-- C1 (amended): for positive `size`, `batch_size` and
`0 ≤ overlap < batch_size`, `_make_batches_overlap` returns exactly
`max(0, ceil((size-batch_size)/(batch_size-overlap)) + 1)` windows;
window `i` is `(i*(batch_size-overlap), min(size, (i+1)*batch_size -
i*overlap))`; `filt_length` has no effect; and for
`size=20, batch_size=6, overlap=2` the windows step by 4. -/
theorem C1_window_list (size bs ov fl fl' : ℤ)
    (hsize : 1 ≤ size) (hbs : 1 ≤ bs) (hov : 0 ≤ ov) (hovbs : ov < bs) :
    ((_make_batches_overlap size bs ov fl).length : ℤ) =
        max (iceilDiv (size - bs) (bs - ov) + 1) 0
    ∧ (∀ i : ℕ, i < (_make_batches_overlap size bs ov fl).length →
        (_make_batches_overlap size bs ov fl).getD i (0, 0) =
          ((i : ℤ) * (bs - ov), min size (((i : ℤ) + 1) * bs - (i : ℤ) * ov)))
    ∧ _make_batches_overlap size bs ov fl = _make_batches_overlap size bs ov fl'
    ∧ _make_batches_overlap 20 6 2 fl = [(0, 6), (4, 10), (8, 14), (12, 18), (16, 20)] := by
  refine ⟨?_, ?_, rfl, ?_⟩
  · rw [length_make_batches_overlap, Int.toNat_eq_max]
  · intro i hi
    exact getD_make_batches_overlap size bs ov fl i hi
  · have h0 : _make_batches_overlap 20 6 2 fl = _make_batches_overlap 20 6 2 0 := rfl
    rw [h0]
    decide

/-- Witness for C1 at `size=20, batch_size=6, overlap=2`,
`filt_length ∈ {3, 7}`. -/
theorem C1_window_list_witness :
    ((1 : ℤ) ≤ 20 ∧ (1 : ℤ) ≤ 6 ∧ (0 : ℤ) ≤ 2 ∧ (2 : ℤ) < 6) ∧
    (((_make_batches_overlap 20 6 2 3).length : ℤ) =
        max (iceilDiv (20 - 6) (6 - 2) + 1) 0
    ∧ (∀ i : ℕ, i < (_make_batches_overlap 20 6 2 3).length →
        (_make_batches_overlap 20 6 2 3).getD i (0, 0) =
          ((i : ℤ) * (6 - 2), min 20 (((i : ℤ) + 1) * 6 - (i : ℤ) * 2)))
    ∧ _make_batches_overlap 20 6 2 3 = _make_batches_overlap 20 6 2 7
    ∧ _make_batches_overlap 20 6 2 3 = [(0, 6), (4, 10), (8, 14), (12, 18), (16, 20)]) :=
  ⟨by decide, C1_window_list 20 6 2 3 7 (by decide) (by decide) (by decide) (by decide)⟩

/-! ### Claim C3: delay lookups are clamped into range -/

/-- C3: for a selected index `i < N` and any non-negative delay `d`, the
delay-index built by `time_delay_generator`
(`np.minimum(np.maximum(0, i - d), N-1)`) and the one built by
`time_delay_generator_AE` (`np.maximum(0, i - d)`) both equal
`clamp(i - d, 0, N-1)` and lie in `[0, N-1]` — delay lookups never index
out of range. -/
theorem C3_delay_index_clamped (N i d : ℕ) (hi : i < N) :
    tdgDelayIndex N i (d : ℤ) = clamp ((i : ℤ) - (d : ℤ)) 0 ((N : ℤ) - 1)
    ∧ aeDelayIndex i d = clamp ((i : ℤ) - (d : ℤ)) 0 ((N : ℤ) - 1)
    ∧ 0 ≤ tdgDelayIndex N i (d : ℤ) ∧ tdgDelayIndex N i (d : ℤ) ≤ (N : ℤ) - 1
    ∧ 0 ≤ aeDelayIndex i d ∧ aeDelayIndex i d ≤ (N : ℤ) - 1 := by
  have hi' : (i : ℤ) < (N : ℤ) := by exact_mod_cast hi
  have hd0 : (0 : ℤ) ≤ (d : ℤ) := Int.ofNat_nonneg d
  have hmax : max 0 ((i : ℤ) - (d : ℤ)) ≤ (N : ℤ) - 1 := max_le (by omega) (by omega)
  refine ⟨rfl, ?_, ?_, ?_, ?_, ?_⟩
  · exact (min_eq_left hmax).symm
  · exact le_min (le_max_left _ _) (by omega)
  · exact min_le_right _ _
  · exact le_max_left _ _
  · exact hmax

/-- Witness for C3 at `N = 5, i = 3, d = 4` (a left-clamped lookup). -/
theorem C3_delay_index_clamped_witness :
    3 < 5 ∧
    (tdgDelayIndex 5 3 ((4 : ℕ) : ℤ) = clamp (((3 : ℕ) : ℤ) - ((4 : ℕ) : ℤ)) 0 (((5 : ℕ) : ℤ) - 1)
    ∧ aeDelayIndex 3 4 = clamp (((3 : ℕ) : ℤ) - ((4 : ℕ) : ℤ)) 0 (((5 : ℕ) : ℤ) - 1)
    ∧ 0 ≤ tdgDelayIndex 5 3 ((4 : ℕ) : ℤ) ∧ tdgDelayIndex 5 3 ((4 : ℕ) : ℤ) ≤ ((5 : ℕ) : ℤ) - 1
    ∧ 0 ≤ aeDelayIndex 3 4 ∧ aeDelayIndex 3 4 ≤ ((5 : ℕ) : ℤ) - 1) :=
  ⟨by decide, C3_delay_index_clamped 5 3 4 (by decide)⟩

/-! ### Claim C4: the weight mask -/

/-- C4 fails as stated: with delay set `[2, 0]` and a batch containing
id `1`, the claim predicts weight 0 (since `1 < max{2,0} = 2`), but the
code masks with `delays[-1] = 0`, so the weight stays 1. -/
theorem C4_weight_mask_counterexample :
    (0 : ℕ) < ([1] : List ℕ).length ∧ ([2, 0] : List ℤ) ≠ [] ∧
    (1 : ℤ) < max 2 0 ∧ (wBatch none [1] [2, 0]).getD 0 0 ≠ 0 := by
  decide

/-- C4 (amended): the weight at batch position `i` is 0 exactly when
`batch_ids[i] < delays[-1]` (the last element of the delay set — equal
to `max(delay set)` for ascending delay sets such as `range(k)`), and
otherwise equals column 0 of the supplied weight array at row
`batch_ids[i]` (the code indexes `weights[batch_ids, :][:, 0]`), or 1
when no weight array was supplied. -/
theorem C4_weight_mask (weights : Option (ℕ → ℕ → ℚ)) (batch_ids : List ℕ)
    (delays : List ℤ) (i : ℕ) (hi : i < batch_ids.length) (hne : delays ≠ []) :
    (wBatch weights batch_ids delays).length = batch_ids.length ∧
    (wBatch weights batch_ids delays).getD i 0 =
      if (batch_ids.getD i 0 : ℤ) < delays.getLastD 0 then 0
      else weights.elim 1 (fun W => W (batch_ids.getD i 0) 0) := by
  have hraw : (wBatchRaw weights batch_ids).length = batch_ids.length := by
    cases weights <;> simp [wBatchRaw]
  have hlen : (wBatch weights batch_ids delays).length = batch_ids.length := by
    unfold wBatch
    rw [List.length_zipWith, hraw, Nat.min_self]
  refine ⟨hlen, ?_⟩
  have hi2 : i < (wBatch weights batch_ids delays).length := by rw [hlen]; exact hi
  rw [List.getD_eq_getElem?_getD, List.getElem?_eq_getElem hi2, Option.getD_some,
    List.getD_eq_getElem?_getD, List.getElem?_eq_getElem hi, Option.getD_some]
  simp only [wBatch, List.getElem_zipWith]
  cases weights with
  | none => simp [wBatchRaw]
  | some W => simp [wBatchRaw, Option.elim]

/-- Witness for C4: weights supplied, `batch_ids = [0, 4]`,
`delays = [1, 2]`, position 1 (an unmasked entry). -/
theorem C4_weight_mask_witness :
    (1 < ([0, 4] : List ℕ).length ∧ ([1, 2] : List ℤ) ≠ []) ∧
    ((wBatch (some (fun r _ => (r : ℚ) * 3)) [0, 4] [1, 2]).length =
        ([0, 4] : List ℕ).length ∧
     (wBatch (some (fun r _ => (r : ℚ) * 3)) [0, 4] [1, 2]).getD 1 0 =
       if (([0, 4] : List ℕ).getD 1 0 : ℤ) < ([1, 2] : List ℤ).getLastD 0 then 0
       else (some (fun r _ => (r : ℚ) * 3) : Option (ℕ → ℕ → ℚ)).elim 1
         (fun W => W (([0, 4] : List ℕ).getD 1 0) 0)) :=
  ⟨⟨by decide, by decide⟩,
   C4_weight_mask (some (fun r _ => (r : ℚ) * 3)) [0, 4] [1, 2] 1 (by decide) (by decide)⟩

/-! ### Claim C5: the `delays=3`, `batch_ids = [0,1,2,5]` scenario -/

/-- C5 fails as stated: with no weights and `delays=3` (so the delay set
is `range(3) = [0,1,2]` and the mask is `batch_ids < 2`), the batch ids
`0,1,2,5` yield weights `0,0,1,1`, not `0,0,0,1` — id `2` is *not*
zeroed because `2 < 2` is false. -/
theorem C5_weight_scenario_counterexample :
    wBatch none [0, 1, 2, 5] [0, 1, 2] ≠ [0, 0, 0, 1] := by
  decide

/-- C5 (amended): with no weights and `delays=3` (delay set
`range(3) = [0,1,2]`), a batch with ids `0,1,2,5` yields the weight
vector `0,0,1,1`: exactly the ids strictly below `delays[-1] = 2` are
zeroed and all other weights are 1. -/
theorem C5_weight_scenario :
    wBatch none [0, 1, 2, 5] [0, 1, 2] = [0, 0, 1, 1] := by
  decide

/-! ### Claim C2: overlap sharing and coverage of the window list -/

/-- C2 fails as stated: for `size=1, batch_size=2, overlap=1` (all
positive, `0 ≤ overlap < batch_size`) the window list is empty, so its
union does not cover `[0, 1)`: no window contains the index 0. -/
theorem C2_overlap_coverage_counterexample :
    (1 : ℤ) ≤ 1 ∧ (1 : ℤ) ≤ 2 ∧ (0 : ℤ) ≤ 1 ∧ (1 : ℤ) < 2 ∧
    (0 : ℤ) ≤ 0 ∧ (0 : ℤ) < 1 ∧
    ¬ ∃ w ∈ _make_batches_overlap 1 2 1 0, w.1 ≤ 0 ∧ (0 : ℤ) < w.2 := by
  decide

/-- C2 (amended): for positive `size`, `batch_size` and
`0 ≤ overlap < batch_size`, every two consecutive windows of
`_make_batches_overlap` share exactly `overlap` indices (also at the
clipped final window), and — provided `overlap < size` — the union of
all windows covers `[0, size)`; when `size ≤ overlap` the window list is
empty. -/
theorem C2_overlap_share_cover (size bs ov fl : ℤ)
    (hsize : 1 ≤ size) (hbs : 1 ≤ bs) (hov : 0 ≤ ov) (hovbs : ov < bs) :
    (∀ i : ℕ, i + 1 < (_make_batches_overlap size bs ov fl).length →
      (Finset.Ico ((_make_batches_overlap size bs ov fl).getD i (0, 0)).1
          ((_make_batches_overlap size bs ov fl).getD i (0, 0)).2 ∩
        Finset.Ico ((_make_batches_overlap size bs ov fl).getD (i + 1) (0, 0)).1
          ((_make_batches_overlap size bs ov fl).getD (i + 1) (0, 0)).2).card = ov.toNat) ∧
    (ov < size → ∀ j : ℤ, 0 ≤ j → j < size →
      ∃ w ∈ _make_batches_overlap size bs ov fl, w.1 ≤ j ∧ j < w.2) := by
  have hstep : 0 < bs - ov := by omega
  set C : ℤ := iceilDiv (size - bs) (bs - ov) with hC
  constructor
  · -- consecutive windows share exactly `overlap` indices
    intro i hi
    have hilen : i < (_make_batches_overlap size bs ov fl).length := by omega
    have hi' : ((i : ℤ)) + 1 < C + 1 := by
      rw [length_make_batches_overlap] at hi
      omega
    have hiC : (i : ℤ) ≤ C - 1 := by omega
    -- window i is unclipped: i*(bs-ov) + bs ≤ size
    have hmul : (i : ℤ) * (bs - ov) ≤ (C - 1) * (bs - ov) :=
      mul_le_mul_of_nonneg_right hiC (le_of_lt hstep)
    have hlast : (C - 1) * (bs - ov) < size - bs := mul_iceilDiv_sub_one_lt hstep
    have hend : (i : ℤ) * (bs - ov) + bs ≤ size := by omega
    rw [getD_make_batches_overlap size bs ov fl i hilen,
      getD_make_batches_overlap size bs ov fl (i + 1) hi]
    push_cast
    have r1 : ((i : ℤ) + 1) * bs - (i : ℤ) * ov = (i : ℤ) * (bs - ov) + bs := by ring
    have r2 : ((i : ℤ) + 1 + 1) * bs - ((i : ℤ) + 1) * ov = ((i : ℤ) + 1) * (bs - ov) + bs := by
      ring
    rw [r1, r2, min_eq_right hend, Finset.Ico_inter_Ico]
    have hmax : max ((i : ℤ) * (bs - ov)) (((i : ℤ) + 1) * (bs - ov)) =
        ((i : ℤ) + 1) * (bs - ov) := max_eq_right (by nlinarith)
    have hminr : (i : ℤ) * (bs - ov) + bs ≤ min size (((i : ℤ) + 1) * (bs - ov) + bs) :=
      le_min hend (by nlinarith)
    rw [hmax, min_eq_left hminr, Int.card_Ico]
    congr 1
    ring
  · -- the windows cover [0, size) once overlap < size
    intro hovsize j hj0 hjsize
    have hC0 : 0 ≤ C := by
      by_contra hneg
      have h1 : C ≤ -1 := by omega
      have h2 : size - bs ≤ (-1) * (bs - ov) :=
        (@iceilDiv_le_iff (size - bs) (bs - ov) (-1) hstep).mp (by omega)
      omega
    have hi0low : j / (bs - ov) * (bs - ov) ≤ j := Int.ediv_mul_le j (by omega)
    have hi0high : j < j / (bs - ov) * (bs - ov) + (bs - ov) := by
      have := Int.lt_ediv_add_one_mul_self j hstep
      nlinarith [this]
    have hi00 : 0 ≤ j / (bs - ov) := Int.ediv_nonneg hj0 (le_of_lt hstep)
    by_cases hcase : j / (bs - ov) ≤ C - 1
    · -- j lies in window number j / (bs - ov)
      have hbound : (j / (bs - ov)).toNat < (_make_batches_overlap size bs ov fl).length := by
        rw [length_make_batches_overlap]
        omega
      refine ⟨(_make_batches_overlap size bs ov fl).get ⟨(j / (bs - ov)).toNat, hbound⟩,
        List.get_mem _ _ _, ?_⟩
      rw [get_make_batches_overlap]
      have hcast : ((j / (bs - ov)).toNat : ℤ) = j / (bs - ov) := Int.toNat_of_nonneg hi00
      rw [hcast]
      constructor
      · exact hi0low
      · have r1 : (j / (bs - ov) + 1) * bs - j / (bs - ov) * ov =
            j / (bs - ov) * (bs - ov) + bs := by ring
        rw [r1]
        exact lt_min hjsize (by omega)
    · -- j lies in the final window, number C
      have hCle : C ≤ j / (bs - ov) := by omega
      have hbound : C.toNat < (_make_batches_overlap size bs ov fl).length := by
        rw [length_make_batches_overlap]
        omega
      refine ⟨(_make_batches_overlap size bs ov fl).get ⟨C.toNat, hbound⟩,
        List.get_mem _ _ _, ?_⟩
      rw [get_make_batches_overlap]
      have hcast : (C.toNat : ℤ) = C := Int.toNat_of_nonneg hC0
      rw [hcast]
      have hmono : C * (bs - ov) ≤ j / (bs - ov) * (bs - ov) :=
        mul_le_mul_of_nonneg_right hCle (le_of_lt hstep)
      constructor
      · omega
      · have r1 : (C + 1) * bs - C * ov = C * (bs - ov) + bs := by ring
        rw [r1]
        have hcover : size - bs ≤ C * (bs - ov) := le_mul_iceilDiv hstep
        exact lt_min hjsize (by omega)

/-- Witness for C2 at `size=20, batch_size=6, overlap=2, filt_length=1`. -/
theorem C2_overlap_share_cover_witness :
    ((1 : ℤ) ≤ 20 ∧ (1 : ℤ) ≤ 6 ∧ (0 : ℤ) ≤ 2 ∧ (2 : ℤ) < 6) ∧
    ((∀ i : ℕ, i + 1 < (_make_batches_overlap 20 6 2 1).length →
      (Finset.Ico ((_make_batches_overlap 20 6 2 1).getD i (0, 0)).1
          ((_make_batches_overlap 20 6 2 1).getD i (0, 0)).2 ∩
        Finset.Ico ((_make_batches_overlap 20 6 2 1).getD (i + 1) (0, 0)).1
          ((_make_batches_overlap 20 6 2 1).getD (i + 1) (0, 0)).2).card = (2 : ℤ).toNat) ∧
    ((2 : ℤ) < 20 → ∀ j : ℤ, 0 ≤ j → j < 20 →
      ∃ w ∈ _make_batches_overlap 20 6 2 1, w.1 ≤ j ∧ j < w.2)) :=
  ⟨by decide, C2_overlap_share_cover 20 6 2 1 (by decide) (by decide) (by decide) (by decide)⟩

/-! ### Claim C6: shape and contents of the assembled `x_batch` -/

/-- C6: for source arrays `xs` of leading length `N`, batch ids `B` and
delay set `D`, the yielded `x_batch` has one named tensor per source
array (`x_batch1`, `x_batch2`, ...); tensor `k` has shape
`(|B|, |D|, trailing dims)` and its entry at batch position `i`, delay
position `j` is source `k` at leading index
`clamp(B[i] - D[j], 0, N-1)` — the batch and delay axes are swapped
relative to the natural gather order by the `[1, 0, 2, ...]` transpose. -/
theorem C6_x_batch_assembly {α : Type*} [Inhabited α] (xs : List (ℕ → α)) (N : ℕ)
    (B : List ℕ) (D : List ℤ) (k i j : ℕ)
    (hk : k < xs.length) (hi : i < B.length) (hj : j < D.length) :
    (tdgXBatch xs N B D).length = xs.length ∧
    ((tdgXBatch xs N B D).getD k default).1 = "x_batch" ++ toString (k + 1) ∧
    ((tdgXBatch xs N B D).getD k default).2.rows = B.length ∧
    ((tdgXBatch xs N B D).getD k default).2.cols = D.length ∧
    ((tdgXBatch xs N B D).getD k default).2.ent i j =
      (xs.getD k (fun _ => default))
        ((clamp ((B.getD i 0 : ℤ) - D.getD j 0) 0 ((N : ℤ) - 1)).toNat) := by
  have hlen : (tdgXBatch xs N B D).length = xs.length := by
    simp [tdgXBatch, _standardize_input_data]
  have hk2 : k < (tdgXBatch xs N B D).length := by rw [hlen]; exact hk
  have hgd : (tdgXBatch xs N B D).getD k default =
      ("x_batch" ++ toString (k + 1), xBatchOf (xs.getD k (fun _ => default)) N B D) := by
    rw [List.getD_eq_getElem?_getD, List.getElem?_eq_getElem hk2, Option.getD_some]
    simp only [tdgXBatch, _standardize_input_data]
    rw [List.getElem_zip]
    congr 1
    · simp
    · rw [List.getElem_map,
        List.getD_eq_getElem?_getD, List.getElem?_eq_getElem hk, Option.getD_some]
  refine ⟨hlen, ?_, ?_, ?_, ?_⟩
  · rw [hgd]
  · rw [hgd]; rfl
  · rw [hgd]; rfl
  · rw [hgd]; rfl

/-- Witness for C6: two source arrays of leading length 4,
`B = [0, 3]`, `D = [0, 2]`, probing tensor 2 at `(i, j) = (0, 1)`. -/
theorem C6_x_batch_assembly_witness :
    (1 < ([fun n => (n : ℤ) * 10, fun n => (n : ℤ) + 100] : List (ℕ → ℤ)).length ∧
      0 < ([0, 3] : List ℕ).length ∧ 1 < ([0, 2] : List ℤ).length) ∧
    ((tdgXBatch [fun n => (n : ℤ) * 10, fun n => (n : ℤ) + 100] 4 [0, 3] [0, 2]).length =
        ([fun n => (n : ℤ) * 10, fun n => (n : ℤ) + 100] : List (ℕ → ℤ)).length ∧
    ((tdgXBatch [fun n => (n : ℤ) * 10, fun n => (n : ℤ) + 100] 4 [0, 3] [0, 2]).getD 1
        default).1 = "x_batch" ++ toString (1 + 1) ∧
    ((tdgXBatch [fun n => (n : ℤ) * 10, fun n => (n : ℤ) + 100] 4 [0, 3] [0, 2]).getD 1
        default).2.rows = ([0, 3] : List ℕ).length ∧
    ((tdgXBatch [fun n => (n : ℤ) * 10, fun n => (n : ℤ) + 100] 4 [0, 3] [0, 2]).getD 1
        default).2.cols = ([0, 2] : List ℤ).length ∧
    ((tdgXBatch [fun n => (n : ℤ) * 10, fun n => (n : ℤ) + 100] 4 [0, 3] [0, 2]).getD 1
        default).2.ent 0 1 =
      (([fun n => (n : ℤ) * 10, fun n => (n : ℤ) + 100] : List (ℕ → ℤ)).getD 1
          (fun _ => default))
        ((clamp ((([0, 3] : List ℕ).getD 0 0 : ℤ) - ([0, 2] : List ℤ).getD 1 0) 0
          ((4 : ℤ) - 1)).toNat)) :=
  ⟨⟨by decide, by decide, by decide⟩,
   C6_x_batch_assembly [fun n => (n : ℤ) * 10, fun n => (n : ℤ) + 100] 4 [0, 3] [0, 2]
     1 0 1 (by decide) (by decide) (by decide)⟩

/-! ### Claim C7: the conv generator's infinite periodic stream -/

/-- C7 fails as stated: for an `x` of leading length 1 with
`filt_length=3, frames_per_TR=1, TRs_in_model=1` the window list of
`time_delay_generator_conv` is empty, so its `while 1` loop spins
without ever yielding — there is no 0-th yielded value. -/
theorem C7_conv_stream_counterexample :
    convNth (fun _ => (0 : ℤ)) 1 3 1 1 0 = none := by
  decide

/-- C7 (amended): whenever the window list of
`time_delay_generator_conv` is non-empty, the generator never
terminates: for every `n ≥ 0` it yields an `n`-th batch, that batch is
the `(n mod W)`-th window's batch (`W` = number of windows from
`_make_batches_overlap`), with no shuffling — the same fixed window
sequence is re-emitted indefinitely.  When the window list is empty the
generator loops forever without yielding. -/
theorem C7_conv_stream {α : Type*} (x : ℕ → α) (L : ℕ) (fl f T : ℤ)
    (hne : convBatches L fl f T ≠ []) (n : ℕ) :
    convNth x L fl f T n =
      some (convEmit x L ((convBatches L fl f T).getD
        (n % (convBatches L fl f T).length) (0, 0))) ∧
    convNth x L fl f T n = convNth x L fl f T (n % (convBatches L fl f T).length) := by
  have hW : ¬ (convBatches L fl f T).length = 0 := by
    simpa [List.length_eq_zero] using hne
  constructor
  · unfold convNth
    rw [if_neg hW]
  · unfold convNth
    rw [if_neg hW, if_neg hW, Nat.mod_mod_of_dvd n dvd_rfl]

/-- Witness for C7: `x = id` of leading length 10, `filt_length=1,
frames_per_TR=2, TRs_in_model=2` (four windows), probing `n = 5`. -/
theorem C7_conv_stream_witness :
    convBatches 10 1 2 2 ≠ [] ∧
    (convNth (fun k => (k : ℤ)) 10 1 2 2 5 =
      some (convEmit (fun k => (k : ℤ)) 10 ((convBatches 10 1 2 2).getD
        (5 % (convBatches 10 1 2 2).length) (0, 0))) ∧
    convNth (fun k => (k : ℤ)) 10 1 2 2 5 =
      convNth (fun k => (k : ℤ)) 10 1 2 2 (5 % (convBatches 10 1 2 2).length)) :=
  ⟨by decide, C7_conv_stream (fun k => (k : ℤ)) 10 1 2 2 (by decide) 5⟩

/-! ### Claim C8: generation never mutates the caller's arrays -/

/-- C8: producing any number of passes of `time_delay_generator` leaves
the caller-supplied `x`, `y` and `weights` unchanged: the weight
masking acts on the freshly gathered copy inside `tdgEmit`, and the only
state the generator mutates is its own `index_array` (shuffled in
place, modelled by the applied permutations `perms`). -/
theorem C8_caller_arrays_unchanged {α β : Type*} (N batch_size : ℕ) (delays : List ℤ)
    (perms : ℕ → List ℕ → List ℕ) (n : ℕ) (s : TDGState α β) :
    (tdgRunState N batch_size delays perms n s).x = s.x ∧
    (tdgRunState N batch_size delays perms n s).y = s.y ∧
    (tdgRunState N batch_size delays perms n s).weights = s.weights := by
  induction n generalizing s with
  | zero => exact ⟨rfl, rfl, rfl⟩
  | succ n ih =>
    simp only [tdgRunState]
    exact ih _

/-! ### Claim C9: each pass visits every sample exactly once -/

theorem take_append_drop_take {α : Type*} : ∀ (p q : ℕ) (m : List α),
    m.take p ++ (m.drop p).take q = m.take (p + q)
  | 0, q, m => by simp
  | p + 1, q, [] => by simp
  | p + 1, q, a :: as => by
    have h : p + 1 + q = (p + q) + 1 := by omega
    rw [h]
    simp only [List.take_succ_cons, List.drop_succ_cons, List.cons_append,
      take_append_drop_take p q as]

theorem pySlice_append {α : Type*} (l : List α) {a b c : ℕ} (h1 : a ≤ b) (h2 : b ≤ c) :
    pySlice l a b ++ pySlice l b c = pySlice l a c := by
  unfold pySlice
  have hd : l.drop b = (l.drop a).drop (b - a) := by
    rw [List.drop_drop]
    congr 1
    omega
  rw [hd, take_append_drop_take (b - a) (c - b) (l.drop a)]
  congr 1
  omega

theorem flatten_pySlices_range {α : Type*} (bs : ℕ) : ∀ (m k : ℕ) (l : List α),
    ((List.range m).map
      (fun (j : ℕ) => pySlice l ((k + j) * bs) ((k + j + 1) * bs))).flatten =
      pySlice l (k * bs) ((k + m) * bs)
  | 0, k, l => by simp [pySlice]
  | m + 1, k, l => by
    rw [List.range_succ, List.map_append, List.flatten_append]
    simp only [List.map_cons, List.map_nil, List.flatten_cons, List.flatten_nil,
      List.append_nil]
    rw [flatten_pySlices_range bs m k l]
    have h1 : k * bs ≤ (k + m) * bs := Nat.mul_le_mul_right bs (by omega)
    have h2 : (k + m) * bs ≤ (k + m + 1) * bs := Nat.mul_le_mul_right bs (by omega)
    rw [pySlice_append l h1 h2]
    rfl

theorem pySlice_min_length {α : Type*} (l : List α) (a b : ℕ) :
    pySlice l a (min l.length b) = pySlice l a b := by
  unfold pySlice
  rcases le_or_lt b l.length with h | h
  · rw [min_eq_right h]
  · rw [min_eq_left (le_of_lt h),
      List.take_of_length_le (by rw [List.length_drop]),
      List.take_of_length_le (by rw [List.length_drop]; omega)]

/-- C9: within one outer pass of `time_delay_generator`, the
concatenation of `batch_ids` over all batch ranges is the whole
(possibly shuffled) `index_array`, a permutation of `[0, N)`: every
sample index lands in exactly one batch exactly once per pass, with or
without shuffling. -/
theorem C9_pass_is_permutation (N batch_size : ℕ) (hbs : 0 < batch_size)
    (ia : List ℕ) (hperm : ia.Perm (List.range N)) :
    (((_make_batches N batch_size).map (fun w => pySlice ia w.1 w.2)).flatten).Perm
      (List.range N) := by
  have hlen : ia.length = N := by rw [hperm.length_eq, List.length_range]
  have hflat :
      ((_make_batches N batch_size).map (fun w => pySlice ia w.1 w.2)).flatten = ia := by
    unfold _make_batches
    rw [List.map_map]
    have hfun : ((fun w => pySlice ia w.1 w.2) ∘
        (fun (i : ℕ) => (i * batch_size, min N ((i + 1) * batch_size)))) =
        (fun (j : ℕ) => pySlice ia ((0 + j) * batch_size) ((0 + j + 1) * batch_size)) := by
      funext i
      simp only [Function.comp_apply, Nat.zero_add]
      rw [← hlen, pySlice_min_length]
    rw [hfun, flatten_pySlices_range]
    unfold pySlice
    simp only [Nat.zero_mul, Nat.zero_add, List.drop_zero, Nat.sub_zero]
    apply List.take_of_length_le
    have h1 := Nat.div_add_mod (N + batch_size - 1) batch_size
    have h2 := Nat.mod_lt (N + batch_size - 1) hbs
    have h3 : batch_size * ((N + batch_size - 1) / batch_size) =
        ((N + batch_size - 1) / batch_size) * batch_size := Nat.mul_comm _ _
    omega
  rw [hflat]
  exact hperm

/-- Witness for C9: `N = 5`, `batch_size = 2`, shuffled index array
`[3, 0, 4, 1, 2]`. -/
theorem C9_pass_is_permutation_witness :
    (0 < 2 ∧ ([3, 0, 4, 1, 2] : List ℕ).Perm (List.range 5)) ∧
    (((_make_batches 5 2).map
      (fun w => pySlice ([3, 0, 4, 1, 2] : List ℕ) w.1 w.2)).flatten).Perm
      (List.range 5) :=
  ⟨⟨by decide, by decide⟩,
   C9_pass_is_permutation 5 2 (by decide) [3, 0, 4, 1, 2] (by decide)⟩

end KFS
